import Mathlib

/-!
Verification of the `render-latex` delimiter-parsing and escaping pipeline.

Strings are modelled as lists of Unicode characters (`List Char`).  Every
definition below is a direct shallow embedding of the corresponding
TypeScript function of `src/index.ts`:

* the regex `(?:START)([\s\S]*?)(?:END)` with the `g` flag is modelled by
  lazy (shortest-content) leftmost matching with literal start/end tokens,
  restarting after the end of each match;
* `String.prototype.replaceAll` with a literal pattern is modelled by a
  left-to-right non-overlapping textual replacement;
* `Array.prototype.sort` (stable in ECMAScript) is modelled by the stable
  `List.insertionSort` with the source's two-key comparator;
* the external KaTeX call (together with the purely cosmetic error-message
  rewrite applied to its markup) is an abstract function parameter
  `engine : List Char → Bool → List Char`, reflecting that the typesetting
  engine is an out-of-core external collaborator;
* the `throw` in `replacePredefinedEscapeSequences` is modelled with
  `Except String`.
-/

namespace RenderLatex

/-- Placeholder for a literal backslash (the private-use character U+1CC00
written as `BACKSLASH_PLACEHOLDER` in the source). -/
def BACKSLASH_PLACEHOLDER : Char := Char.ofNat 0x1CC00

/-- Placeholder for a literal dollar sign (the character U+1CC03 written as
`DOLLAR_PLACEHOLDER` in the source). -/
def DOLLAR_PLACEHOLDER : Char := Char.ofNat 0x1CC03

/-- Segment kind: the `type` field of `ParsedSegment` ("text" or "math"). -/
inductive SegKind where
  | text : SegKind
  | math : SegKind
deriving DecidableEq, Repr

/-- The `ParsedSegment` interface of the source: segment kind, display flag
and textual content. -/
structure ParsedSegment where
  type : SegKind
  display : Bool
  content : List Char
deriving DecidableEq, Repr

/-- The `Match` interface of the source.  `stop` is the (exclusive) `end`
field, renamed because `end` is reserved in Lean. -/
structure Match where
  display : Bool
  content : List Char
  start : Nat
  stop : Nat
deriving DecidableEq, Repr

/-- One entry of the source's `delimiters` table: literal start and end
tokens, the display flag (`type === 'display'`), and whether the entry uses
a `customRegex` (for custom entries the extracted content is the full match
including the markers). -/
structure Delimiter where
  start : List Char
  stop : List Char
  display : Bool
  custom : Bool
deriving DecidableEq, Repr

/-- The fixed `delimiters` table of the source, in source order.
All six compiled regexes have the shape `(?:START)([\s\S]*?)(?:END)` with
literal tokens, so each entry is faithfully described by its two tokens. -/
def delimiters : List Delimiter :=
  [ ⟨("$$").toList, ("$$").toList, true, false⟩,
    ⟨("$").toList, ("$").toList, false, false⟩,
    ⟨("\\[").toList, ("\\]").toList, true, false⟩,
    ⟨("\\(").toList, ("\\)").toList, false, false⟩,
    ⟨("\\begin\x7balign*\x7d").toList, ("\\end\x7balign*\x7d").toList, true, true⟩,
    ⟨("\\begin\x7balign\x7d").toList, ("\\end\x7balign\x7d").toList, true, true⟩ ]

/-- Least `i < n` satisfying `p`, if any: the search order of a regex scan. -/
def firstSuchThat (n : Nat) (p : Nat → Bool) : Option Nat :=
  (List.range n).find? p

/-- Lazy match of `(?:st)([\s\S]*?)(?:en)` anchored at offset `i` of `s`:
if `st` occurs at `i` and some (shortest, by laziness of `*?`) content of
length `c` is followed by `en`, return the exclusive end offset
`i + |st| + c + |en|` of the whole match. -/
def matchAt (s : List Char) (st en : List Char) (i : Nat) : Option Nat :=
  if st.isPrefixOf (s.drop i) then
    match firstSuchThat (s.length + 1)
        (fun c => en.isPrefixOf (s.drop (i + st.length + c))) with
    | some c => some (i + st.length + c + en.length)
    | none => none
  else none

/-- Leftmost match at offset `pos` or later: the behaviour of
`RegExp.exec` with `lastIndex = pos`.  Returns the pair
(start offset, exclusive end offset). -/
def firstMatchFrom (s : List Char) (st en : List Char) (pos : Nat) :
    Option (Nat × Nat) :=
  match (List.range' pos (s.length + 1 - pos)).find?
      (fun i => (matchAt s st en i).isSome) with
  | some i =>
    match matchAt s st en i with
    | some e => some (i, e)
    | none => none
  | none => none

/-- The `while ((match = delimiterRegex.exec(input)) !== null)` loop of
`parseDelimiters` for one delimiter: collect successive leftmost matches,
each scan resuming at the end of the previous match.  `fuel` bounds the
number of iterations; every match consumes at least two characters, so
`s.length + 1` fuel is always sufficient. -/
def scanFrom (s : List Char) (d : Delimiter) : Nat → Nat → List Match
  | 0, _ => []
  | fuel + 1, pos =>
    match firstMatchFrom s d.start d.stop pos with
    | none => []
    | some (i, e) =>
      { display := d.display,
        content :=
          if d.custom then (s.drop i).take (e - i)
          else (s.drop (i + d.start.length)).take (e - i - d.start.length - d.stop.length),
        start := i,
        stop := e } :: scanFrom s d fuel e

/-- Step 1 of `parseDelimiters`: all raw matches of all delimiters, in
table order (the flat `allRawMatches` array). -/
def allRawMatches (s : List Char) : List Match :=
  delimiters.flatMap (fun d => scanFrom s d (s.length + 1) 0)

/-- The two-key comparator of `allRawMatches.sort`: start offset ascending,
ties broken by span length descending. -/
def matchLE (a b : Match) : Prop :=
  a.start < b.start ∨ (a.start = b.start ∧ b.stop - b.start ≤ a.stop - a.start)

instance : DecidableRel matchLE := fun a b =>
  inferInstanceAs (Decidable (a.start < b.start ∨ (a.start = b.start ∧ b.stop - b.start ≤ a.stop - a.start)))

/-- Step 2 of `parseDelimiters`: the sorted match list.  ECMAScript
`Array.prototype.sort` is stable, and a stable sort by a total preorder is
unique, so the stable `List.insertionSort` reproduces it exactly. -/
def sortedMatches (s : List Char) : List Match :=
  List.insertionSort matchLE (allRawMatches s)

/-- Step 3 of `parseDelimiters`: the overlap-resolution sweep with cursor
`lastProcessedEndIndex`, accepting a match iff it starts at or after the
cursor and then moving the cursor to its end. -/
def sweep : List Match → Nat → List Match
  | [], _ => []
  | m :: ms, cursor =>
    if cursor ≤ m.start then m :: sweep ms m.stop else sweep ms cursor

/-- The `finalMatches` array of the source: sweep of the sorted matches
starting with cursor 0. -/
def finalMatches (s : List Char) : List Match :=
  sweep (sortedMatches s) 0

/-- The slice `input.substring(a, b)` for `a ≤ b` (offsets in characters). -/
def extract (s : List Char) (a b : Nat) : List Char :=
  (s.drop a).take (b - a)

/-- Step 4 of `parseDelimiters`: interleave text slices between accepted
matches (cursor `previousIndex`) with the math segments, plus the trailing
text slice. -/
def buildOutput (input : List Char) : List Match → Nat → List ParsedSegment
  | [], prev =>
    if prev < input.length then
      [⟨SegKind.text, false, extract input prev input.length⟩]
    else []
  | m :: ms, prev =>
    (if prev < m.start then [⟨SegKind.text, false, extract input prev m.start⟩] else [])
      ++ ⟨SegKind.math, m.display, m.content⟩ :: buildOutput input ms m.stop

/-- The source's `parseDelimiters`: find all raw matches, sort them, sweep
away overlaps and emit the text/math segment list. -/
def parseDelimiters (input : List Char) : List ParsedSegment :=
  buildOutput input (finalMatches input) 0

/-- Left-to-right non-overlapping replacement of the literal pattern `pat`
by `rep` (the semantics of `String.prototype.replaceAll` with a string
pattern).  The first argument is the number of characters still to skip
after an accepted occurrence. -/
def replaceAllGo (pat rep : List Char) : Nat → List Char → List Char
  | 0, [] => []
  | 0, c :: rest =>
    if pat.isPrefixOf (c :: rest) then
      rep ++ replaceAllGo pat rep (pat.length - 1) rest
    else c :: replaceAllGo pat rep 0 rest
  | _ + 1, [] => []
  | n + 1, _ :: rest => replaceAllGo pat rep n rest

/-- `input.replaceAll(pat, rep)` for a non-empty literal pattern. -/
def replaceAll (pat rep s : List Char) : List Char :=
  replaceAllGo pat rep 0 s

/-- The `escapes` map of the source: `\\` (two characters) to the
backslash placeholder and `\$` to the dollar placeholder, in key insertion
order. -/
def escapes : List (List Char × List Char) :=
  [ (("\\\\").toList, [BACKSLASH_PLACEHOLDER]),
    (("\\$").toList, [DOLLAR_PLACEHOLDER]) ]

/-- `Object.keys(escapes)`, in insertion order. -/
def escapeSequences : List (List Char) := escapes.map (fun e => e.1)

/-- The source's `replacePredefinedEscapeSequences`: look the sequence up
in the `escapes` map, throwing (modelled as `Except.error`) when it is
absent, else replace every occurrence by its placeholder. -/
def replacePredefinedEscapeSequences (input : List Char) (sequenceToReplace : List Char) :
    Except String (List Char) :=
  match escapes.lookup sequenceToReplace with
  | some replacement => Except.ok (replaceAll sequenceToReplace replacement input)
  | none => Except.error "Escape sequence not found in escapes map."

/-- The `unEscapes` reversion used for text segments: each placeholder goes
back to its single literal character.  The source implements this with a
single regex alternation over the placeholder characters. -/
def unescapeCharacters (s : List Char) : List Char :=
  s.map (fun c =>
    if c = BACKSLASH_PLACEHOLDER then '\\'
    else if c = DOLLAR_PLACEHOLDER then '$'
    else c)

/-- The `mathUnEscapes` reversion used for math segments: the backslash
placeholder becomes a doubled backslash (KaTeX's literal backslash), the
dollar placeholder a single dollar sign. -/
def revertEscapedCharacters (s : List Char) : List Char :=
  s.flatMap (fun c =>
    if c = BACKSLASH_PLACEHOLDER then ['\\', '\\']
    else if c = DOLLAR_PLACEHOLDER then ['$']
    else [c])

/-- `convertNewlinesToLatexBreaks`: every newline becomes the three-token
sequence space, four backslashes, space. -/
def convertNewlinesToLatexBreaks (s : List Char) : List Char :=
  s.flatMap (fun c => if c = '\n' then (" \\\\\\\\ ").toList else [c])

/-- The initial sanitation of `renderMath`: delete every pre-existing
placeholder character from the raw input. -/
def cleanedOf (input : List Char) : List Char :=
  input.filter (fun c => !(c == BACKSLASH_PLACEHOLDER || c == DOLLAR_PLACEHOLDER))

/-- Step 1 of `renderMath`: fold `replacePredefinedEscapeSequences` over
`escapeSequences` (first `\\`, then `\$`), propagating its error. -/
def escapeAll (s : List Char) : Except String (List Char) :=
  escapeSequences.foldlM (fun acc seq => replacePredefinedEscapeSequences acc seq) s

/-- Rendering of one segment in the `renderMath` loop: text segments get
newline conversion then text-mode unescaping; math segments get math-mode
reversion and are handed to the external engine with their display flag. -/
def renderSegment (engine : List Char → Bool → List Char) (seg : ParsedSegment) :
    List Char :=
  match seg.type with
  | SegKind.text => unescapeCharacters (convertNewlinesToLatexBreaks seg.content)
  | SegKind.math => engine (revertEscapedCharacters seg.content) seg.display

/-- The `renderedOutput` accumulation of `renderMath`: concatenate the
rendered segments in order. -/
def renderedOutput (engine : List Char → Bool → List Char)
    (segs : List ParsedSegment) : List Char :=
  segs.foldl (fun acc seg => acc ++ renderSegment engine seg) []

/-- The top-level `renderMath`: sanitize, escape (the only possibly-failing
step), parse into segments, and render each segment.  `engine` abstracts
`katex.renderToString` together with the cosmetic error-title rewrite
applied to its markup. -/
def renderMath (engine : List Char → Bool → List Char) (input : List Char) :
    Except String (List Char) :=
  (escapeAll (cleanedOf input)).map
    (fun escapedInput => renderedOutput engine (parseDelimiters escapedInput))

/-- The list of `(content, displayMode)` argument pairs of the
`katex.renderToString` invocations performed by `renderMath` on `input`,
in order. -/
def engineCalls (input : List Char) : List (List Char × Bool) :=
  match escapeAll (cleanedOf input) with
  | Except.ok escapedInput =>
    (parseDelimiters escapedInput).filterMap (fun seg =>
      match seg.type with
      | SegKind.math => some (revertEscapedCharacters seg.content, seg.display)
      | SegKind.text => none)
  | Except.error _ => []

/-- Concatenation of the `content` fields of a segment list, in order. -/
def concatContents (segs : List ParsedSegment) : List Char :=
  segs.foldl (fun acc seg => acc ++ seg.content) []

/-- The first escape substitution of the renderMath loop:
`input.replaceAll('\\', BACKSLASH_PLACEHOLDER)` (the two-character sequence
backslash backslash becomes the backslash sentinel). -/
def escapeBackslashes (s : List Char) : List Char :=
  replaceAll (("\\\\").toList) [BACKSLASH_PLACEHOLDER] s

/-- The second escape substitution of the renderMath loop:
`input.replaceAll('\$', DOLLAR_PLACEHOLDER)` (the two-character sequence
backslash dollar becomes the dollar sentinel). -/
def escapeDollars (s : List Char) : List Char :=
  replaceAll (("\\$").toList) [DOLLAR_PLACEHOLDER] s

/-- Whether the string contains the three-character substring
backslash backslash dollar (the overlap of the two escape patterns). -/
def hasBBDollar : List Char → Bool
  | [] => false
  | c :: rest => ("\\\\$").toList.isPrefixOf (c :: rest) || hasBBDollar rest

/-- Cursor invariant of the accepted match list: each match starts at or
after the running cursor, which then advances to the match's end. -/
def cursorOK : Nat → List Match → Prop
  | _, [] => True
  | prev, m :: ms => prev ≤ m.start ∧ cursorOK m.stop ms

/-- Concatenation of the inter-match gaps with the full matched spans of
the input, walking the accepted match list with the builder's cursor.
This is the builder's coverage of the input: text slices between matches
plus the complete `[start, stop)` slice of every accepted match. -/
def spanConcat (s : List Char) : List Match → Nat → List Char
  | [], prev => extract s prev s.length
  | m :: ms, prev =>
    extract s prev m.start ++ (extract s m.start m.stop ++ spanConcat s ms m.stop)

instance : IsTotal Match matchLE :=
  ⟨fun a b => by unfold matchLE; omega⟩

instance : IsTrans Match matchLE :=
  ⟨fun a b c => by unfold matchLE; omega⟩

/-- Input of the C1 counterexample: `"$a$"`. -/
def c1Input : List Char := ("$a$").toList

/-- Input of the C2 counterexample: backslash backslash dollar. -/
def c2Input : List Char := ['\\', '\\', '$']

/-- Nested-delimiter input of C4: `"$$ a $b$ c $$"`. -/
def c4Input : List Char := ("$$ a $b$ c $$").toList

/-- Tie-breaking input of C5: `"$$a$$"`. -/
def c5Input : List Char := ("$$a$$").toList

/-- Escaped-dollar input of C6: backslash dollar five. -/
def c6Input : List Char := ("\\$5").toList

/-- Newline input of C7: `"a\nb $x\ny$ c"`. -/
def c7Input : List Char := ("a\nb $x\ny$ c").toList

/-- Unterminated-delimiter input of C8. -/
def c8InputA : List Char := ("text with unclosed $ delimiter").toList

/-- Mismatched-delimiter input of C8 (single literal backslashes). -/
def c8InputB : List Char := ("mismatched \\( delimiters \\]").toList

/-- A Boolean token-at-offset test can only succeed when the token fits. -/
theorem isPrefixOf_length_le :
    ∀ (p l : List Char), p.isPrefixOf l = true → p.length ≤ l.length
  | [], _, _ => Nat.zero_le _
  | a :: as, [], h => by simp [List.isPrefixOf] at h
  | a :: as, b :: bs, h => by
    simp only [List.isPrefixOf, Bool.and_eq_true] at h
    simpa using Nat.succ_le_succ (isPrefixOf_length_le as bs h.2)

/-- A non-empty token never occurs at an offset past the end of the string. -/
theorem isPrefixOf_nil_eq_false {en : List Char} (hen : en ≠ []) :
    en.isPrefixOf ([] : List Char) = false := by
  cases en with
  | nil => exact absurd rfl hen
  | cons a as => rfl

/-- A successful anchored match starts no later than it ends and ends
within the string (for a non-empty end token). -/
theorem matchAt_bounds {s st en : List Char} {i e : Nat} (hen : en ≠ [])
    (h : matchAt s st en i = some e) : i ≤ e ∧ e ≤ s.length := by
  unfold matchAt at h
  split at h
  · split at h
    case _ c hfind =>
      have he : i + st.length + c + en.length = e := by
        injection h
      have hfind' : (List.range (s.length + 1)).find?
          (fun c => en.isPrefixOf (s.drop (i + st.length + c))) = some c := hfind
      have hp : en.isPrefixOf (s.drop (i + st.length + c)) = true := by
        simpa using List.find?_some hfind'
      have hlen := isPrefixOf_length_le _ _ hp
      rw [List.length_drop] at hlen
      have hone : 1 ≤ en.length := by
        cases en with
        | nil => exact absurd rfl hen
        | cons _ _ => simp
      omega
    case _ => exact absurd h (by simp)
  · exact absurd h (by simp)

/-- A leftmost-match result is an anchored match at its start offset. -/
theorem firstMatchFrom_some {s st en : List Char} {pos i e : Nat}
    (h : firstMatchFrom s st en pos = some (i, e)) : matchAt s st en i = some e := by
  unfold firstMatchFrom at h
  split at h
  case _ i' hfind =>
    split at h
    case _ e' hm =>
      have hij := Option.some.inj h
      have h1 : i' = i := congrArg Prod.fst hij
      have h2 : e' = e := congrArg Prod.snd hij
      rw [← h1, ← h2]
      exact hm
    case _ => exact absurd h (by simp)
  case _ => exact absurd h (by simp)

/-- Every match the per-delimiter scan produces has a well-formed span
inside the string, provided the delimiter's end token is non-empty. -/
theorem scanFrom_bounds {s : List Char} {d : Delimiter} (hen : d.stop ≠ []) :
    ∀ (fuel pos : Nat) (m : Match), m ∈ scanFrom s d fuel pos →
      m.start ≤ m.stop ∧ m.stop ≤ s.length
  | 0, _, m, h => by simp [scanFrom] at h
  | fuel + 1, pos, m, h => by
    rw [scanFrom] at h
    cases hf : firstMatchFrom s d.start d.stop pos with
    | none => rw [hf] at h; simp at h
    | some ie =>
      obtain ⟨i, e⟩ := ie
      rw [hf] at h
      rcases List.mem_cons.mp h with rfl | h'
      · simpa using matchAt_bounds hen (firstMatchFrom_some hf)
      · exact scanFrom_bounds hen fuel e m h'

/-- Every delimiter of the table has a non-empty end token. -/
theorem delimiters_stop_ne_nil : ∀ d ∈ delimiters, d.stop ≠ [] := by decide

/-- Every raw match has a well-formed span inside the string. -/
theorem allRawMatches_bounds {s : List Char} :
    ∀ m ∈ allRawMatches s, m.start ≤ m.stop ∧ m.stop ≤ s.length := by
  intro m hm
  rw [allRawMatches, List.mem_flatMap] at hm
  obtain ⟨d, hd, hmem⟩ := hm
  exact scanFrom_bounds (delimiters_stop_ne_nil d hd) _ _ m hmem

/-- Sorting does not change the set of matches. -/
theorem mem_sortedMatches {s : List Char} {m : Match} (h : m ∈ sortedMatches s) :
    m ∈ allRawMatches s :=
  (List.perm_insertionSort matchLE (allRawMatches s)).mem_iff.mp h

/-- The overlap sweep only keeps candidates. -/
theorem sweep_subset :
    ∀ (ms : List Match) (cursor : Nat) {x : Match}, x ∈ sweep ms cursor → x ∈ ms
  | [], _, _, h => by simp [sweep] at h
  | m :: ms, cursor, x, h => by
    rw [sweep] at h
    split at h
    · rcases List.mem_cons.mp h with rfl | h'
      · exact List.mem_cons_self _ _
      · exact List.mem_cons_of_mem _ (sweep_subset ms _ h')
    · exact List.mem_cons_of_mem _ (sweep_subset ms _ h)

/-- The first accepted match starts at or after the initial cursor. -/
theorem sweep_head_start :
    ∀ (ms : List Match) (cursor : Nat) {hd : Match} {tl : List Match},
      sweep ms cursor = hd :: tl → cursor ≤ hd.start
  | [], _, _, _, h => by simp [sweep] at h
  | m :: ms, cursor, hd, tl, h => by
    rw [sweep] at h
    split at h
    · cases h
      assumption
    · exact sweep_head_start ms cursor h

/-- Consecutive accepted matches do not overlap: each starts at or after
the end of the previous one. -/
theorem sweep_chain :
    ∀ (ms : List Match) (cursor : Nat),
      List.Chain' (fun a b => a.stop ≤ b.start) (sweep ms cursor)
  | [], _ => List.chain'_nil
  | m :: ms, cursor => by
    rw [sweep]
    split
    · rw [List.chain'_cons']
      refine ⟨?_, sweep_chain ms m.stop⟩
      intro b hb
      cases hsw : sweep ms m.stop with
      | nil => rw [hsw] at hb; simp at hb
      | cons hd tl =>
        rw [hsw] at hb
        simp only [List.head?_cons, Option.mem_def, Option.some.injEq] at hb
        exact hb ▸ sweep_head_start ms m.stop hsw
    · exact sweep_chain ms cursor

/-- The accepted list satisfies the cursor invariant from its initial
cursor. -/
theorem sweep_cursorOK :
    ∀ (ms : List Match) (cursor : Nat), cursorOK cursor (sweep ms cursor)
  | [], _ => trivial
  | m :: ms, cursor => by
    rw [sweep]
    split
    · exact ⟨by assumption, sweep_cursorOK ms m.stop⟩
    · exact sweep_cursorOK ms cursor

/-- Adjacent slices concatenate to the enclosing slice. -/
theorem extract_append_extract {s : List Char} {a b c : Nat}
    (h1 : a ≤ b) (h2 : b ≤ c) :
    extract s a b ++ extract s b c = extract s a c := by
  unfold extract
  have hd : s.drop b = (s.drop a).drop (b - a) := by
    rw [List.drop_drop]
    congr 1
    omega
  rw [hd, ← List.take_add]
  congr 1
  omega

/-- Walking a well-formed accepted match list from cursor `prev`, the
gap-plus-span concatenation reproduces the input from `prev` on. -/
theorem spanConcat_drop (s : List Char) :
    ∀ (ms : List Match) (prev : Nat),
      (∀ m ∈ ms, m.start ≤ m.stop ∧ m.stop ≤ s.length) → cursorOK prev ms →
      spanConcat s ms prev = s.drop prev
  | [], prev, _, _ => by
    unfold spanConcat extract
    apply List.take_of_length_le
    rw [List.length_drop]
  | m :: ms, prev, hb, hc => by
    obtain ⟨h1, hc'⟩ := hc
    obtain ⟨h2, _⟩ := hb m (List.mem_cons_self m ms)
    unfold spanConcat
    rw [spanConcat_drop s ms m.stop (fun x hx => hb x (List.mem_cons_of_mem _ hx)) hc',
      ← List.append_assoc, extract_append_extract h1 h2]
    unfold extract
    have hd : s.drop m.stop = (s.drop prev).drop (m.stop - prev) := by
      rw [List.drop_drop]
      congr 1
      omega
    rw [hd, List.take_append_drop]

/-- The two-character escape pattern backslash backslash, as a list. -/
theorem bbList : ("\\\\").toList = ['\\', '\\'] := rfl

/-- The two-character escape pattern backslash dollar, as a list. -/
theorem bdList : ("\\$").toList = ['\\', '$'] := rfl

/-- The three-character overlap pattern backslash backslash dollar. -/
theorem bbdList : ("\\\\$").toList = ['\\', '\\', '$'] := rfl

/-- The backslash substitution consumes a leading double backslash. -/
theorem escapeBackslashes_matched (t : List Char) :
    escapeBackslashes ('\\' :: '\\' :: t) =
      BACKSLASH_PLACEHOLDER :: escapeBackslashes t := by
  simp [escapeBackslashes, replaceAll, bbList, replaceAllGo, List.isPrefixOf]

/-- The backslash substitution steps over a non-backslash character. -/
theorem escapeBackslashes_cons {c : Char} (t : List Char) (h : c ≠ '\\') :
    escapeBackslashes (c :: t) = c :: escapeBackslashes t := by
  simp [escapeBackslashes, replaceAll, bbList, replaceAllGo, List.isPrefixOf, Ne.symm h]

/-- The backslash substitution steps over a backslash not followed by a
backslash. -/
theorem escapeBackslashes_bs_cons {c : Char} (t : List Char) (h : c ≠ '\\') :
    escapeBackslashes ('\\' :: c :: t) = '\\' :: escapeBackslashes (c :: t) := by
  simp [escapeBackslashes, replaceAll, bbList, replaceAllGo, List.isPrefixOf, Ne.symm h]

/-- The backslash substitution leaves a final lone backslash in place. -/
theorem escapeBackslashes_single : escapeBackslashes ['\\'] = ['\\'] := rfl

/-- The dollar substitution consumes a leading backslash dollar pair. -/
theorem escapeDollars_matched (t : List Char) :
    escapeDollars ('\\' :: '$' :: t) = DOLLAR_PLACEHOLDER :: escapeDollars t := by
  simp [escapeDollars, replaceAll, bdList, replaceAllGo, List.isPrefixOf]

/-- The dollar substitution steps over a non-backslash character. -/
theorem escapeDollars_cons {c : Char} (t : List Char) (h : c ≠ '\\') :
    escapeDollars (c :: t) = c :: escapeDollars t := by
  simp [escapeDollars, replaceAll, bdList, replaceAllGo, List.isPrefixOf, Ne.symm h]

/-- The dollar substitution steps over a backslash not followed by a
dollar sign. -/
theorem escapeDollars_bs_cons {c : Char} (t : List Char) (h : c ≠ '$') :
    escapeDollars ('\\' :: c :: t) = '\\' :: escapeDollars (c :: t) := by
  simp [escapeDollars, replaceAll, bdList, replaceAllGo, List.isPrefixOf, Ne.symm h]

/-- The dollar substitution leaves a final lone backslash in place. -/
theorem escapeDollars_single : escapeDollars ['\\'] = ['\\'] := rfl

/-- On inputs free of the overlap substring backslash backslash dollar,
the two escape substitutions commute (strong induction on length). -/
theorem escape_comm_aux :
    ∀ (n : Nat) (s : List Char), s.length ≤ n → hasBBDollar s = false →
      escapeDollars (escapeBackslashes s) = escapeBackslashes (escapeDollars s) := by
  intro n
  induction n with
  | zero =>
    intro s hs _
    have hnil : s = [] := List.eq_nil_of_length_eq_zero (Nat.le_zero.mp hs)
    subst hnil
    rfl
  | succ n ih =>
    intro s hs hno
    rcases s with _ | ⟨c, t⟩
    · rfl
    · by_cases hc : c = '\\'
      · subst hc
        rcases t with _ | ⟨c2, t2⟩
        · rfl
        · by_cases hc2 : c2 = '\\'
          · subst hc2
            rcases t2 with _ | ⟨c3, t3⟩
            · rfl
            · by_cases hc3 : c3 = '$'
              · subst hc3
                simp [hasBBDollar, bbdList, List.isPrefixOf] at hno
              · have hno' : hasBBDollar (c3 :: t3) = false := by
                  simp only [hasBBDollar, Bool.or_eq_false_iff] at hno ⊢
                  exact ⟨hno.2.2.1, hno.2.2.2⟩
                have hlen : (c3 :: t3).length ≤ n := by
                  simp only [List.length_cons] at hs ⊢
                  omega
                rw [escapeBackslashes_matched (c3 :: t3),
                  @escapeDollars_cons BACKSLASH_PLACEHOLDER (escapeBackslashes (c3 :: t3)) (by decide),
                  @escapeDollars_bs_cons '\\' (c3 :: t3) (by decide),
                  escapeDollars_bs_cons t3 hc3,
                  ih _ hlen hno',
                  escapeBackslashes_matched (escapeDollars (c3 :: t3))]
          · by_cases hc2d : c2 = '$'
            · subst hc2d
              have hno' : hasBBDollar t2 = false := by
                simp only [hasBBDollar, Bool.or_eq_false_iff] at hno
                exact hno.2.2
              have hlen : t2.length ≤ n := by
                simp only [List.length_cons] at hs
                omega
              rw [@escapeBackslashes_bs_cons '$' t2 (by decide),
                @escapeBackslashes_cons '$' t2 (by decide),
                escapeDollars_matched (escapeBackslashes t2),
                escapeDollars_matched t2,
                @escapeBackslashes_cons DOLLAR_PLACEHOLDER (escapeDollars t2) (by decide),
                ih _ hlen hno']
            · have hno' : hasBBDollar (c2 :: t2) = false := by
                simp only [hasBBDollar, Bool.or_eq_false_iff] at hno ⊢
                exact ⟨hno.2.1, hno.2.2⟩
              have hlen : t2.length ≤ n := by
                simp only [List.length_cons] at hs
                omega
              have hno'' : hasBBDollar t2 = false := by
                simp only [hasBBDollar, Bool.or_eq_false_iff] at hno
                exact hno.2.2
              rw [escapeBackslashes_bs_cons t2 hc2,
                escapeBackslashes_cons t2 hc2,
                escapeDollars_bs_cons (escapeBackslashes t2) hc2d,
                escapeDollars_cons (escapeBackslashes t2) hc2,
                escapeDollars_bs_cons t2 hc2d,
                escapeDollars_cons t2 hc2,
                escapeBackslashes_bs_cons (escapeDollars t2) hc2,
                escapeBackslashes_cons (escapeDollars t2) hc2,
                ih t2 hlen hno'']
      · have hno' : hasBBDollar t = false := by
          simp only [hasBBDollar, Bool.or_eq_false_iff] at hno
          exact hno.2
        have hlen : t.length ≤ n := by
          simp only [List.length_cons] at hs
          omega
        rw [escapeBackslashes_cons t hc, escapeDollars_cons t hc,
          escapeDollars_cons (escapeBackslashes t) hc,
          escapeBackslashes_cons (escapeDollars t) hc,
          ih t hlen hno']

/-- Newline conversion leaves no newline character behind. -/
theorem convertNewlines_count (s : List Char) :
    (convertNewlinesToLatexBreaks s).count '\n' = 0 := by
  induction s with
  | nil => rfl
  | cons c t ih =>
    unfold convertNewlinesToLatexBreaks at ih ⊢
    rw [List.flatMap_cons, List.count_append, ih]
    by_cases hc : c = '\n'
    · subst hc
      rw [if_pos rfl]
      decide
    · rw [if_neg hc]
      simp [List.count_cons, Ne.symm hc]

/-- C1 counterexample: on the input `"$a$"` parseDelimiters returns a
single math segment with content `"a"`, so concatenating the `content`
fields of the segments yields `"a"`, which is not the input string: the
claimed reconstruction property fails because generic math segments carry
their content with the delimiters stripped. -/
theorem c1_concat_counterexample :
    concatContents (parseDelimiters c1Input) ≠ c1Input := by decide

/-- C1 (amended): the accepted matches are a gap-free, overlap-free,
order-preserving partition of the input: concatenating the between-match
gaps (which are exactly the text segments' contents) with each accepted
match's full span slice reconstructs every input exactly, and
parseDelimiters is the segment builder applied to those accepted matches.
Concatenating the raw `content` fields alone does not reconstruct the
input, since a generic math segment's content excludes its delimiters. -/
theorem c1_partition_amended (s : List Char) :
    spanConcat s (finalMatches s) 0 = s ∧
    parseDelimiters s = buildOutput s (finalMatches s) 0 := by
  constructor
  · have hb : ∀ m ∈ finalMatches s, m.start ≤ m.stop ∧ m.stop ≤ s.length :=
      fun m hm => allRawMatches_bounds m (mem_sortedMatches (sweep_subset _ _ hm))
    have hds := spanConcat_drop s (finalMatches s) 0 hb
      (sweep_cursorOK (sortedMatches s) 0)
    simpa using hds
  · rfl

/-- C2 counterexample: on the input backslash backslash dollar, replacing
every backslash backslash by the backslash sentinel first and then every
backslash dollar by the dollar sentinel (the code's order) yields the
backslash sentinel followed by a dollar sign, while the opposite order
yields a backslash followed by the dollar sentinel: the two substitution
orders do not agree on all inputs. -/
theorem c2_order_counterexample :
    escapeDollars (escapeBackslashes c2Input) ≠
      escapeBackslashes (escapeDollars c2Input) := by decide

/-- C2 (amended): the two whole-occurrence substitutions commute on every
input that does not contain the three-character overlap substring
backslash backslash dollar (in general they do not commute), and the
escape phase of renderMath applies them in the fixed order backslash
backslash first, then backslash dollar. -/
theorem c2_escape_order_amended (s : List Char) (h : hasBBDollar s = false) :
    escapeDollars (escapeBackslashes s) = escapeBackslashes (escapeDollars s) ∧
    escapeAll s = Except.ok (escapeDollars (escapeBackslashes s)) :=
  ⟨escape_comm_aux s.length s (Nat.le_refl _) h, rfl⟩

/-- C2 witness: the amended commutation theorem instantiated at the
concrete overlap-free input backslash dollar five. -/
theorem c2_escape_order_amended_witness :
    hasBBDollar c6Input = false ∧
    (escapeDollars (escapeBackslashes c6Input) = escapeBackslashes (escapeDollars c6Input) ∧
      escapeAll c6Input = Except.ok (escapeDollars (escapeBackslashes c6Input))) :=
  ⟨by decide, c2_escape_order_amended c6Input (by decide)⟩

/-- C3: renderMath always returns a string: for every engine (the external
typesetting engine, non-throwing because it is modelled as a total
function) and every input, the result is `Except.ok`; in particular the
internal-invariant error of replacePredefinedEscapeSequences is
unreachable from renderMath, whose only call sites pass the two keys of
the escapes table. -/
theorem c3_renderMath_total (engine : List Char → Bool → List Char)
    (input : List Char) :
    ∃ output, renderMath engine input = Except.ok output :=
  ⟨_, rfl⟩

/-- C4: the accepted match list is sorted and mutually non-overlapping
(every accepted match starts at or after the end offset of the previous
accepted match, candidates starting inside an accepted span being
discarded by the sweep), and on the nested input `"$$ a $b$ c $$"`
parseDelimiters returns exactly one display math segment with content
`" a $b$ c "`, the inner `$b$` never being independently extracted. -/
theorem c4_sweep_nonoverlap :
    (∀ s : List Char,
      List.Chain' (fun a b => a.stop ≤ b.start) (finalMatches s) ∧
      ∀ m, m ∈ finalMatches s → m.start ≤ m.stop) ∧
    parseDelimiters c4Input = [⟨SegKind.math, true, (" a $b$ c ").toList⟩] :=
  ⟨fun s => ⟨sweep_chain _ 0,
    fun m hm => (allRawMatches_bounds m (mem_sortedMatches (sweep_subset _ _ hm))).1⟩,
   by decide⟩

/-- C4 witness: the span well-formedness part instantiated at the
concrete input `"$a$"` and its unique accepted match. -/
theorem c4_sweep_nonoverlap_witness :
    (⟨false, ['a'], 0, 3⟩ : Match) ∈ finalMatches c1Input ∧
    (⟨false, ['a'], 0, 3⟩ : Match).start ≤ (⟨false, ['a'], 0, 3⟩ : Match).stop :=
  ⟨by decide, (c4_sweep_nonoverlap.1 c1Input).2 _ (by decide)⟩

/-- C5: candidates are sorted by start offset ascending with ties broken
by span length descending (the matchLE order), so on `"$$a$$"` the longer
display delimiter wins at offset 0 and parseDelimiters yields exactly one
display math segment with content `"a"`, never two empty inline
segments. -/
theorem c5_sort_tiebreak :
    (∀ s : List Char, List.Sorted matchLE (sortedMatches s)) ∧
    parseDelimiters c5Input = [⟨SegKind.math, true, ['a']⟩] :=
  ⟨fun s => List.sorted_insertionSort matchLE (allRawMatches s), by decide⟩

/-- C6: escaped-dollar round trip: renderMath on the three-character input
backslash dollar five returns the two-character string dollar five, and
the external engine is never invoked on that input. -/
theorem c6_escaped_dollar :
    (∀ engine, renderMath engine c6Input = Except.ok (("$5").toList)) ∧
    engineCalls c6Input = [] :=
  ⟨fun _ => rfl, rfl⟩

/-- C7: text-segment postprocessing replaces every newline by the
three-token sequence space, four backslashes, space (no newline survives
the conversion), and on the input `"a\nb $x\ny$ c"` the two newlines
outside the math span become break tokens while the newline inside the
math content is handed to the engine unchanged. -/
theorem c7_newline_conversion :
    (∀ s : List Char, (convertNewlinesToLatexBreaks s).count '\n' = 0) ∧
    (∀ engine, renderMath engine c7Input =
      Except.ok ((("a \\\\\\\\ b ").toList ++ engine (("x\ny").toList) false)
        ++ (" c").toList)) ∧
    engineCalls c7Input = [((("x\ny").toList), false)] :=
  ⟨convertNewlines_count, fun _ => rfl, by decide⟩

/-- C8: a start token with no matching end token before the end of the
input produces no anchored match at any offset, and the two degenerate
example inputs (`"text with unclosed $ delimiter"` and
`"mismatched \( delimiters \]"`) each parse to exactly one text segment
equal to the whole input. -/
theorem c8_unterminated_no_match :
    (∀ (s st en : List Char) (i : Nat), en ≠ [] →
      (∀ j ∈ List.range (s.length + 1), st.length + i ≤ j →
        en.isPrefixOf (s.drop j) = false) →
      matchAt s st en i = none) ∧
    parseDelimiters c8InputA = [⟨SegKind.text, false, c8InputA⟩] ∧
    parseDelimiters c8InputB = [⟨SegKind.text, false, c8InputB⟩] := by
  refine ⟨?_, by decide, by decide⟩
  intro s st en i hen hno
  unfold matchAt
  split
  · have hfind : firstSuchThat (s.length + 1)
        (fun c => en.isPrefixOf (s.drop (i + st.length + c))) = none := by
      unfold firstSuchThat
      rw [List.find?_eq_none]
      intro c hc
      simp only [Bool.not_eq_true]
      by_cases hj : i + st.length + c ≤ s.length
      · exact hno _ (List.mem_range.mpr (by omega)) (by omega)
      · rw [List.drop_eq_nil_of_le (by omega)]
        exact isPrefixOf_nil_eq_false hen
    rw [hfind]
  · rfl

/-- C8 witness: the no-closing-token lemma applied at a concrete input:
in `"a$bc"` the dollar delimiter anchored at offset 1 has no closing
dollar after it, hence no match. -/
theorem c8_unterminated_no_match_witness :
    (("$").toList ≠ ([] : List Char)) ∧
    (∀ j ∈ List.range ((("a$bc").toList).length + 1),
      (("$").toList).length + 1 ≤ j →
        (("$").toList).isPrefixOf ((("a$bc").toList).drop j) = false) ∧
    matchAt (("a$bc").toList) (("$").toList) (("$").toList) 1 = none :=
  ⟨by decide, by decide,
    c8_unterminated_no_match.1 _ _ _ 1 (by decide) (by decide)⟩

/-- C9: parseDelimiters of the empty string is the empty segment list,
not a list containing a single empty text segment. -/
theorem c9_empty_input : parseDelimiters ([] : List Char) = [] := by decide

/-- C10: the input of exactly two dollar signs parses as a single inline
(display = false) math segment with empty content, which renderMath hands
to the engine as the empty string rather than falling back to text. -/
theorem c10_empty_inline_math :
    parseDelimiters (("$$").toList) = [⟨SegKind.math, false, []⟩] ∧
    engineCalls (("$$").toList) = [([], false)] ∧
    ∀ engine, renderMath engine (("$$").toList) = Except.ok (engine [] false) :=
  ⟨by decide, by decide, fun _ => rfl⟩

end RenderLatex
